import Mathlib

/-!
Verification development for the corruptionTracker repository
(`src/clank/extract_pdf_text.py` and `src/clank/simple_pdf_analysis.py`).

The two Python scripts extract candidate proper names and relationship
phrases from text using `re` regular expressions.  This file embeds the
relevant functions shallowly: text is a `List Char` (Python `str` by code
points), `re.findall` is modelled by deterministic scanners whose
backtracking behaviour was derived from the concrete patterns in the
source (all patterns are deterministic up to dropping trailing words of a
greedy word chain, see the comments at `entCandidates` and
`tryNameMatch`).  Character classes `\s` and `\w` are modelled over their
ASCII range, which is exact for the `[A-Z]`/`[a-z]` classes in the source
patterns.
-/

namespace Clank

/-- Python ASCII `\s`: space, tab, newline, carriage return, vertical tab,
form feed. -/
def isSpc (c : Char) : Bool :=
  c = ' ' || c = '\t' || c = '\n' || c = '\r' || c = '\x0b' || c = '\x0c'

/-- Python `\w` word character (ASCII range): letter, digit or underscore. -/
def isWordC (c : Char) : Bool :=
  c.isAlpha || c.isDigit || c = '_'

/-- ASCII lower-casing, as applied by `re.IGNORECASE` to the ASCII letters
appearing in the source patterns. -/
def lc (c : Char) : Char :=
  if c.isUpper then Char.ofNat (c.toNat + 32) else c

/-- Shorthand: the character list of a string literal. -/
def lits (s : String) : List Char := s.data

/-! ## A generic deterministic automaton runner

Both name-pattern recognisers below are total functions from a state and a
character to an optional next state; running one over a list of characters
either ends in a state or rejects. -/

def runM {σ : Type} (step : σ → Char → Option σ) : σ → List Char → Option σ
  | st, [] => some st
  | st, c :: cs =>
    match step st c with
    | some st' => runM step st' cs
    | none => none

theorem runM_append {σ : Type} (step : σ → Char → Option σ)
    (xs : List Char) :
    ∀ (st : σ) (ys : List Char),
      runM step st (xs ++ ys) =
        match runM step st xs with
        | some st' => runM step st' ys
        | none => none := by
  induction xs with
  | nil => intro st ys; rfl
  | cons c cs ih =>
    intro st ys
    simp only [List.cons_append, runM]
    cases step st c with
    | some st' => exact ih st' ys
    | none => rfl

/-! ## The name patterns

`extract_pdf_text.py` line 23 uses `\b[A-Z][a-z]+(?:\s+[A-Z][a-z]+)*\b`
and `simple_pdf_analysis.py` line 119 uses
`\b[A-Z][a-z]{2,}(?:\s+[A-Z][a-z]{2,})*\b`.  The parameter `m` below is
the minimum number of trailing lowercase letters per word (1 for the
structured-parse script, 2 for the byte-scan script).

`nameFull m l` decides whether the whole list `l` matches
`[A-Z][a-z]{m,}(?:\s+[A-Z][a-z]{m,})*` (the word-boundary anchors hold
trivially for a standalone full match starting and ending in a word
character). -/

inductive NSt : Type
  | start : NSt
  | word : Nat → NSt
  | ws : NSt
deriving DecidableEq

/-- One step of the name-pattern automaton; in state `word k`, `k` counts
the lowercase letters seen since the last uppercase letter. -/
def nstep (m : Nat) : NSt → Char → Option NSt
  | NSt.start, c => if c.isUpper then some (NSt.word 0) else none
  | NSt.word k, c =>
    if c.isLower then some (NSt.word (k + 1))
    else if isSpc c then (if m ≤ k then some NSt.ws else none)
    else none
  | NSt.ws, c =>
    if isSpc c then some NSt.ws
    else if c.isUpper then some (NSt.word 0) else none

/-- Full match of the (parameterised) name pattern. -/
def nameFull (m : Nat) (l : List Char) : Bool :=
  match runM (nstep m) NSt.start l with
  | some (NSt.word k) => decide (m ≤ k)
  | _ => false

theorem nameFull_iff (m : Nat) (l : List Char) :
    nameFull m l = true ↔
      ∃ k, runM (nstep m) NSt.start l = some (NSt.word k) ∧ m ≤ k := by
  unfold nameFull
  cases h : runM (nstep m) NSt.start l with
  | none => simp [h]
  | some st =>
    cases st with
    | start => simp [h]
    | word k =>
      simp only [decide_eq_true_eq]
      constructor
      · intro hk; exact ⟨k, rfl, hk⟩
      · rintro ⟨k', hk', hle⟩
        cases hk'; exact hle
    | ws => simp [h]

/-! ## `re.findall` for the name pattern

Scanning semantics of `re.findall(name_pattern, text)`:
at each position whose preceding character is not a word character, try to
match; the match greedily chains words `[A-Z][a-z]{m,}` separated by
whitespace runs; the final `\b` succeeds unless the next character is a
word character, in which case the regex engine backtracks by dropping the
last chained word (after which the next character is whitespace, so the
boundary holds); if only one word was matched, the match at this position
fails.  (Backtracking inside a `[a-z]+` run or a `\s+` run can never
succeed, because the position would then be followed by a word character
resp. whitespace where the pattern requires the opposite.) -/

/-- Match one word `[A-Z][a-z]{m,}` at the head: an uppercase letter
followed by the maximal run of lowercase letters, which must have length
at least `m`.  Returns the word and the rest. -/
def matchWordU (m : Nat) : List Char → Option (List Char × List Char)
  | [] => none
  | c :: cs =>
    if c.isUpper then
      let run := cs.takeWhile (·.isLower)
      if m ≤ run.length then some (c :: run, cs.dropWhile (·.isLower))
      else none
    else none

/-- Greedily extend a matched word chain with further `\s+[A-Z][a-z]{m,}`
groups.  `prev` remembers the chain with its last word dropped (and the
rest of the text at that point), which is where the regex engine resumes
when the final word boundary fails. -/
def extendChain (m : Nat) :
    Nat → Option (List Char × List Char) → List Char → List Char →
      Option (List Char × List Char) × List Char × List Char
  | 0, prev, acc, rest => (prev, acc, rest)
  | fuel + 1, prev, acc, rest =>
    let sp := rest.takeWhile isSpc
    if sp.isEmpty then (prev, acc, rest)
    else
      match matchWordU m (rest.dropWhile isSpc) with
      | some (w, r2) => extendChain m fuel (some (acc, rest)) (acc ++ sp ++ w) r2
      | none => (prev, acc, rest)

/-- The trailing `\b`: holds at end of text or before a non-word
character. -/
def bAfter : List Char → Bool
  | [] => true
  | c :: _ => !isWordC c

/-- Try to match the name pattern at the current position (the leading
`\b` has already been checked by the caller).  Returns the matched
characters and the rest of the text. -/
def tryNameMatch (m : Nat) (l : List Char) : Option (List Char × List Char) :=
  match matchWordU m l with
  | none => none
  | some (w, rest) =>
    match extendChain m rest.length none w rest with
    | (prev, acc, rest2) =>
      if bAfter rest2 then some (acc, rest2)
      else
        -- the final `\b` failed; drop the last chained word (the boundary
        -- then holds because the next character is whitespace)
        match prev with
        | some pr => some pr
        | none => none

/-- The `re.findall` scan for the name pattern.  `bnd` records whether the
previous character was absent or a non-word character (the `\b[A-Z]`
precondition).  Every successful match ends in a lowercase letter, hence
the scan resumes with `bnd = false`. -/
def nameScan (m : Nat) : Nat → Bool → List Char → List (List Char)
  | 0, _, _ => []
  | _ + 1, _, [] => []
  | fuel + 1, bnd, c :: cs =>
    if bnd then
      match tryNameMatch m (c :: cs) with
      | some (w, rest) => w :: nameScan m fuel false rest
      | none => nameScan m fuel (!isWordC c) cs
    else nameScan m fuel (!isWordC c) cs

/-- The result of `re.findall(name_pattern, text)` — the `potential_names` list. -/
def potentialNames (m : Nat) (t : String) : List (List Char) :=
  nameScan m (t.data.length + 1) true t.data

/-! ## Token classification (the `names` set)

Each script filters its `potential_names` through a stoplist
(`common_words`, case-sensitive exact membership) and a length test
`len(name) > 2`, accumulating survivors into a set.  The set is modelled
as a duplicate-free list in insertion order. -/

/-- The `common_words` set of `extract_pdf_text.py` (lines 27–30). -/
def commonWords1 : List String :=
  ["The", "This", "That", "They", "There", "Then", "These", "Those",
   "When", "Where", "What", "Why", "How", "Who", "Which", "Interview",
   "Transcript", "Maxwell", "Redacted", "Page", "Question", "Answer",
   "Detective", "Officer", "Mr", "Mrs", "Ms", "Dr", "Professor"]

/-- The `common_words` set of `simple_pdf_analysis.py` (lines 122–127). -/
def commonWords2 : List String :=
  ["The", "This", "That", "They", "There", "Then", "These", "Those",
   "When", "Where", "What", "Why", "How", "Who", "Which", "Interview",
   "Transcript", "Maxwell", "Redacted", "Page", "Question", "Answer",
   "Detective", "Officer", "And", "But", "For", "Not", "You", "Are",
   "Was", "Were", "Been", "Have", "Has", "Had", "Will", "Would",
   "Could", "Should", "May", "Might", "Can", "Must", "Shall"]

/-- Python `set.add`: append the element unless already present. -/
def pySetAdd (s : List String) (x : String) : List String :=
  if x ∈ s then s else s ++ [x]

/-- One iteration of the filtering loop: `if name not in common_words and
len(name) > 2: names.add(name)`. -/
def namesStep (stop : List String) (acc : List String) (n : List Char) :
    List String :=
  let s : String := ⟨n⟩
  if s ∉ stop ∧ 2 < s.length then pySetAdd acc s else acc

/-- The filtering loop `for name in potential_names: ...` accumulating the
`names` set. -/
def namesFilter (stop : List String) (cands : List (List Char)) : List String :=
  cands.foldl (namesStep stop) []

/-- The `names` set of `extract_names_and_relationships`
(`extract_pdf_text.py` lines 19–34). -/
def extractNames1 (t : String) : List String :=
  namesFilter commonWords1 (potentialNames 1 t)

/-- The `names` set of `analyze_pdf_binary`
(`simple_pdf_analysis.py` lines 118–131), as a function of the
`readable_text` it scans. -/
def extractNames2 (t : String) : List String :=
  namesFilter commonWords2 (potentialNames 2 t)

/-! ## Relationship extraction

`extract_pdf_text.py` lines 37–60 apply ten regex templates with
`re.IGNORECASE`.  Under `re.IGNORECASE` the classes `[A-Z]` and `[a-z]`
both match any ASCII letter, so an entity group
`([A-Z][a-z]+(?:\s+[A-Z][a-z]+)*)` matches a chain of words of at least
two letters each (any case) separated by whitespace runs, and `([a-z]+)`
matches a nonempty letter run of any case.

The concrete patterns admit only one backtracking avenue: a greedy entity
chain gives back trailing words until the remainder of the template
matches (shrinking a letter run or a whitespace run always puts a letter
where the template requires whitespace or vice versa, and the literal
alternations `is|was`, `my|his|her|their`, `with|for`, `met|meets?` are
pairwise exclusive at any text position).  The matchers below implement
exactly that. -/

/-- A relationship tuple as produced by `re.findall`: a pair or a triple
of captured groups. -/
inductive Rel : Type
  | two : String → String → Rel
  | three : String → String → String → Rel
deriving DecidableEq, Repr

/-- The component strings of a relationship tuple. -/
def relParts : Rel → List String
  | Rel.two a b => [a, b]
  | Rel.three a b c => [a, b, c]

/-- Case-insensitive literal match at the head; returns the rest. -/
def matchLitCi : List Char → List Char → Option (List Char)
  | [], l => some l
  | _ :: _, [] => none
  | p :: ps, c :: cs => if lc c = lc p then matchLitCi ps cs else none

/-- The template piece `\s+`: at least one whitespace character, consumed maximally. -/
def matchWs1 : List Char → Option (List Char)
  | [] => none
  | c :: cs => if isSpc c then some (cs.dropWhile isSpc) else none

/-- One entity word `[A-Z][a-z]+` under `IGNORECASE`: the maximal letter run at the head,
of length at least 2. -/
def matchCiWord (l : List Char) : Option (List Char × List Char) :=
  let run := l.takeWhile (·.isAlpha)
  if 2 ≤ run.length then some (run, l.dropWhile (·.isAlpha)) else none

/-- The group `([a-z]+)` under `IGNORECASE`: a nonempty maximal letter run. -/
def matchLow (l : List Char) : Option (List Char × List Char) :=
  let run := l.takeWhile (·.isAlpha)
  if run.isEmpty then none else some (run, l.dropWhile (·.isAlpha))

/-- The optional `s?` after `work`/`know` (case-insensitive).  The
template always requires `\s+` next, so consuming an `s` when present is
exact. -/
def matchOptS : List Char → List Char
  | [] => []
  | c :: cs => if lc c = 's' then cs else c :: cs

/-- The alternation `(?:met|meets?)`: the two branches disagree on their third letter, so
at most one applies. -/
def matchMet (l : List Char) : Option (List Char) :=
  match matchLitCi (lits "met") l with
  | some r => some r
  | none =>
    match matchLitCi (lits "meet") l with
    | some r => some (matchOptS r)
    | none => none

/-- An exclusive literal alternation such as `(?:is|was)`. -/
def matchAlts (alts : List (List Char)) (l : List Char) : Option (List Char) :=
  match alts with
  | [] => none
  | a :: rest =>
    match matchLitCi a l with
    | some r => some r
    | none => matchAlts rest l

/-- First success of `f` over a list. -/
def firstSome {α β : Type} (f : α → Option β) : List α → Option β
  | [] => none
  | a :: as =>
    match f a with
    | some b => some b
    | none => firstSome f as

/-- All states of a greedy entity chain, longest first: starting from a
matched word `acc` with rest `rest`, repeatedly absorb `\s+` + word; the
regex engine commits to the longest chain whose continuation succeeds. -/
def entCandidates : Nat → List Char → List Char → List (List Char × List Char)
  | 0, acc, rest => [(acc, rest)]
  | fuel + 1, acc, rest =>
    let sp := rest.takeWhile isSpc
    if sp.isEmpty then [(acc, rest)]
    else
      match matchCiWord (rest.dropWhile isSpc) with
      | some (w, r2) => entCandidates fuel (acc ++ sp ++ w) r2 ++ [(acc, rest)]
      | none => [(acc, rest)]

/-- Match an entity group `([A-Z][a-z]+(?:\s+[A-Z][a-z]+)*)` (under
`IGNORECASE`) at the head, continuing with `k` on the rest; the longest
chain whose continuation succeeds wins. -/
def matchEnt {β : Type} (l : List Char) (k : List Char → Option β) :
    Option (List Char × β) :=
  match matchCiWord l with
  | none => none
  | some (w, rest) =>
    firstSome
      (fun er =>
        match k er.2 with
        | some b => some (er.1, b)
        | none => none)
      (entCandidates rest.length w rest)

/-! The template tails.  Each is the part of a pattern after the leading
entity group or `REDACTED` literal, written as a named function so that
its captured groups can be reasoned about. -/

/-- The tail `\s+(?:is|was)\s+(?:my|his|her|their)\s+([a-z]+)` of
relationship pattern 1 (line 38) and of redacted pattern 1 (line 51). -/
def isMyTail (r : List Char) : Option (List Char × List Char) :=
  match matchWs1 r with
  | none => none
  | some r =>
    match matchAlts [lits "is", lits "was"] r with
    | none => none
    | some r =>
      match matchWs1 r with
      | none => none
      | some r =>
        match matchAlts [lits "my", lits "his", lits "her", lits "their"] r with
        | none => none
        | some r =>
          match matchWs1 r with
          | none => none
          | some r => matchLow r

/-- The tail `\s+are\s+([a-z]+)` after the second entity of patterns
containing `and … are` (lines 39, 52, 53). -/
def areLowTail (r : List Char) : Option (List Char × List Char) :=
  match matchWs1 r with
  | none => none
  | some r =>
    match matchLitCi (lits "are") r with
    | none => none
    | some r =>
      match matchWs1 r with
      | none => none
      | some r => matchLow r

/-- The connector `\s+works?\s+(?:with|for)` (lines 40, 54, 55). -/
def worksConn (r : List Char) : Option (List Char) :=
  match matchWs1 r with
  | none => none
  | some r =>
    match matchLitCi (lits "work") r with
    | none => none
    | some r =>
      match matchWs1 (matchOptS r) with
      | none => none
      | some r => matchAlts [lits "with", lits "for"] r

/-- A trailing entity group: the greedy chain with trivial
continuation. -/
def entFinal (r : List Char) : Option (List Char × List Char) :=
  matchEnt r (fun r2 => some r2)

/-! The ten pattern matchers.  Each `tryXn l` attempts a match anchored at
the head of `l` and returns the captured groups and the rest of the text
after the match. -/

/-- Line 38: `([grp])\s+(?:is|was)\s+(?:my|his|her|their)\s+([a-z]+)`. -/
def tryP1 (l : List Char) : Option ((List Char × List Char) × List Char) :=
  match matchEnt l isMyTail with
  | some (g1, (g2, rest)) => some ((g1, g2), rest)
  | none => none

/-- Line 39: `([grp])\s+and\s+([grp])\s+are\s+([a-z]+)`. -/
def tryP2 (l : List Char) :
    Option ((List Char × List Char × List Char) × List Char) :=
  match
    matchEnt l (fun r =>
      match matchWs1 r with
      | none => none
      | some r =>
        match matchLitCi (lits "and") r with
        | none => none
        | some r =>
          match matchWs1 r with
          | none => none
          | some r => matchEnt r areLowTail)
  with
  | some (g1, (g2, (g3, rest))) => some ((g1, g2, g3), rest)
  | none => none

/-- Line 40: `([grp])\s+works?\s+(?:with|for)\s+([grp])`. -/
def tryP3 (l : List Char) : Option ((List Char × List Char) × List Char) :=
  match
    matchEnt l (fun r =>
      match worksConn r with
      | none => none
      | some r =>
        match matchWs1 r with
        | none => none
        | some r => entFinal r)
  with
  | some (g1, (g2, rest)) => some ((g1, g2), rest)
  | none => none

/-- Line 41: `([grp])\s+knows?\s+([grp])`. -/
def tryP4 (l : List Char) : Option ((List Char × List Char) × List Char) :=
  match
    matchEnt l (fun r =>
      match matchWs1 r with
      | none => none
      | some r =>
        match matchLitCi (lits "know") r with
        | none => none
        | some r =>
          match matchWs1 (matchOptS r) with
          | none => none
          | some r => entFinal r)
  with
  | some (g1, (g2, rest)) => some ((g1, g2), rest)
  | none => none

/-- Line 42: `([grp])\s+(?:met|meets?)\s+([grp])`. -/
def tryP5 (l : List Char) : Option ((List Char × List Char) × List Char) :=
  match
    matchEnt l (fun r =>
      match matchWs1 r with
      | none => none
      | some r =>
        match matchMet r with
        | none => none
        | some r =>
          match matchWs1 r with
          | none => none
          | some r => entFinal r)
  with
  | some (g1, (g2, rest)) => some ((g1, g2), rest)
  | none => none

/-- Line 51: `REDACTED\s+(?:is|was)\s+(?:my|his|her|their)\s+([a-z]+)` —
one captured group. -/
def tryR1 (l : List Char) : Option (List Char × List Char) :=
  match matchLitCi (lits "redacted") l with
  | some r => isMyTail r
  | none => none

/-- Line 52: `REDACTED\s+and\s+([grp])\s+are\s+([a-z]+)`. -/
def tryR2 (l : List Char) : Option ((List Char × List Char) × List Char) :=
  match matchLitCi (lits "redacted") l with
  | none => none
  | some r =>
    match matchWs1 r with
    | none => none
    | some r =>
      match matchLitCi (lits "and") r with
      | none => none
      | some r =>
        match matchWs1 r with
        | none => none
        | some r =>
          match matchEnt r areLowTail with
          | some (g1, (g2, rest)) => some ((g1, g2), rest)
          | none => none

/-- Line 53: `([grp])\s+and\s+REDACTED\s+are\s+([a-z]+)`. -/
def tryR3 (l : List Char) : Option ((List Char × List Char) × List Char) :=
  match
    matchEnt l (fun r =>
      match matchWs1 r with
      | none => none
      | some r =>
        match matchLitCi (lits "and") r with
        | none => none
        | some r =>
          match matchWs1 r with
          | none => none
          | some r =>
            match matchLitCi (lits "redacted") r with
            | none => none
            | some r => areLowTail r)
  with
  | some (g1, (g2, rest)) => some ((g1, g2), rest)
  | none => none

/-- Line 54: `REDACTED\s+works?\s+(?:with|for)\s+([grp])` — one captured
group. -/
def tryR4 (l : List Char) : Option (List Char × List Char) :=
  match matchLitCi (lits "redacted") l with
  | none => none
  | some r =>
    match worksConn r with
    | none => none
    | some r =>
      match matchWs1 r with
      | none => none
      | some r => entFinal r

/-- Line 55: `([grp])\s+works?\s+(?:with|for)\s+REDACTED` — one captured
group. -/
def tryR5 (l : List Char) : Option (List Char × List Char) :=
  match
    matchEnt l (fun r =>
      match worksConn r with
      | none => none
      | some r =>
        match matchWs1 r with
        | none => none
        | some r => matchLitCi (lits "redacted") r)
  with
  | some (g1, rest) => some (g1, rest)
  | none => none

/-- The `re.findall` scan for a relationship pattern: try a match at every
position, resuming after the end of each (always nonempty) match. -/
def scanP {α : Type} (tryAt : List Char → Option (α × List Char)) :
    Nat → List Char → List α
  | 0, _ => []
  | _ + 1, [] => []
  | fuel + 1, c :: cs =>
    match tryAt (c :: cs) with
    | some (g, rest) => g :: scanP tryAt fuel rest
    | none => scanP tryAt fuel cs

/-- All matches, as `re.findall(pattern, text, re.IGNORECASE)`. -/
def findall {α : Type} (tryAt : List Char → Option (α × List Char))
    (l : List Char) : List α :=
  scanP tryAt (l.length + 1) l

/-- The `relationships` list of `extract_names_and_relationships`
(`extract_pdf_text.py` lines 36–60): the five relationship patterns in
order, then the five redacted patterns in order, single-group matches of
the latter normalized to `('REDACTED', match)` (line 60). -/
def extractRels (t : String) : List Rel :=
  let l := t.data
  (findall tryP1 l).map (fun g => Rel.two ⟨g.1⟩ ⟨g.2⟩) ++
  (findall tryP2 l).map (fun g => Rel.three ⟨g.1⟩ ⟨g.2.1⟩ ⟨g.2.2⟩) ++
  (findall tryP3 l).map (fun g => Rel.two ⟨g.1⟩ ⟨g.2⟩) ++
  (findall tryP4 l).map (fun g => Rel.two ⟨g.1⟩ ⟨g.2⟩) ++
  (findall tryP5 l).map (fun g => Rel.two ⟨g.1⟩ ⟨g.2⟩) ++
  (findall tryR1 l).map (fun g => Rel.two "REDACTED" ⟨g⟩) ++
  (findall tryR2 l).map (fun g => Rel.two ⟨g.1⟩ ⟨g.2⟩) ++
  (findall tryR3 l).map (fun g => Rel.two ⟨g.1⟩ ⟨g.2⟩) ++
  (findall tryR4 l).map (fun g => Rel.two "REDACTED" ⟨g⟩) ++
  (findall tryR5 l).map (fun g => Rel.two "REDACTED" ⟨g⟩)

/-- The full `extract_names_and_relationships` of `extract_pdf_text.py`
(lines 17–62). -/
def extract_names_and_relationships (t : String) : List String × List Rel :=
  (extractNames1 t, extractRels t)

/-! ## Case-insensitive entity spans

What the entity and relation-word groups of the relationship patterns
actually capture under `re.IGNORECASE`: nonempty letter runs separated by
nonempty whitespace runs (beginning and ending with a letter of either
case).  `ciSpan` decides that shape. -/

inductive CSt : Type
  | cstart : CSt
  | cword : CSt
  | cws : CSt
deriving DecidableEq

def cstep : CSt → Char → Option CSt
  | CSt.cstart, c => if c.isAlpha then some CSt.cword else none
  | CSt.cword, c =>
    if c.isAlpha then some CSt.cword
    else if isSpc c then some CSt.cws else none
  | CSt.cws, c =>
    if isSpc c then some CSt.cws
    else if c.isAlpha then some CSt.cword else none

/-- Whether `l` consists of nonempty letter runs separated by nonempty whitespace
runs. -/
def ciSpan (l : List Char) : Bool :=
  decide (runM cstep CSt.cstart l = some CSt.cword)

/-! ## Reporting

`extract_pdf_text.py` lines 72–74 print every name of the sorted set with
the bullet prefix `"  - "`; `simple_pdf_analysis.py` lines 133–135 print
only the first 20 of the sorted set (`sorted(names)[:20]`).  Python
`sorted` on strings is ascending lexicographic comparison by code point;
it is modelled by insertion sort with `strLe`. -/

/-- Strict lexicographic comparison of character lists (Python `<` on
strings, by code point). -/
def lexLt : List Char → List Char → Bool
  | [], [] => false
  | [], _ :: _ => true
  | _ :: _, [] => false
  | a :: as, b :: bs =>
    if a < b then true else if b < a then false else lexLt as bs

/-- Python `<=` on strings. -/
def strLe (a b : String) : Bool := !lexLt b.data a.data

def insertSorted (x : String) : List String → List String
  | [] => [x]
  | y :: ys => if strLe x y then x :: y :: ys else y :: insertSorted x ys

/-- Python `sorted` (on a duplicate-free list standing for a set). -/
def sortStrs : List String → List String
  | [] => []
  | x :: xs => insertSorted x (sortStrs xs)

/-- One printed line of the names report: `print(f"  - {name}")`. -/
def bulletLine (n : String) : String := "  - " ++ n

/-- The per-document names report of `extract_pdf_text.py` (lines 72–74):
`for name in sorted(names1): print(f"  - {name}")`. -/
def reportNames1 (names : List String) : List String :=
  (sortStrs names).map bulletLine

/-- The per-document names report of `simple_pdf_analysis.py` (lines
133–135): `for name in sorted(names)[:20]: print(f"  - {name}")`. -/
def reportNames2 (names : List String) : List String :=
  ((sortStrs names).take 20).map bulletLine

/-! ## Sample file, driver guard, REDACTED count -/

/-- The characters written to the per-document sample file
(`extract_pdf_text.py` lines 80–81 and 95–96): `f.write(text1[:5000])`,
a Python slice of the first 5000 characters. -/
def sampleFileContent (t : String) : List Char := t.data.take 5000

/-- What the structured-parse driver produces for one document. -/
structure DocReport where
  names : List String
  rels : List Rel
  nameLines : List String
  sample : List Char

def mkReport (t : String) : DocReport :=
  let nr := extract_names_and_relationships t
  { names := nr.1, rels := nr.2,
    nameLines := reportNames1 nr.1, sample := sampleFileContent t }

/-- The per-document driver of `extract_pdf_text.py` (lines 69–81 resp.
84–96): `extract_text_from_pdf` returns `None` on failure or the text;
the guard `if text1:` skips classification, the report and the sample
write both when the result is `None` and when it is the empty string. -/
def processDoc : Option String → Option DocReport
  | none => none
  | some t => if t.isEmpty then none else some (mkReport t)

/-- The redaction placeholder `"redacted"`, lower-cased. -/
def redLit : List Char := lits "redacted"

/-- The scan of `re.findall(r'REDACTED', text, re.IGNORECASE)` counting
matches: at a match, resume after its end. -/
def goRed : Nat → List Char → Nat
  | 0, _ => 0
  | _ + 1, [] => 0
  | fuel + 1, c :: cs =>
    match matchLitCi redLit (c :: cs) with
    | some rest => 1 + goRed fuel rest
    | none => goRed fuel cs

/-- The count `len(re.findall(r'REDACTED', readable_text, re.IGNORECASE))`
(`simple_pdf_analysis.py` line 138). -/
def redactedCount (t : String) : Nat := goRed t.data.length t.data

/-- Specification-side count: the number of positions where a
case-insensitive occurrence of `"redacted"` starts. -/
def posCount : List Char → Nat
  | [] => 0
  | c :: cs =>
    (if (matchLitCi redLit (c :: cs)).isSome then 1 else 0) + posCount cs

/-- Case-sensitive substring containment (used to state "text containing
the substring ..."). -/
def hasSub (sub : List Char) : List Char → Bool
  | [] => sub.isEmpty
  | c :: cs => sub.isPrefixOf (c :: cs) || hasSub sub cs

/-! ## Generic lemmas about the scanners -/

theorem firstSome_spec {α β : Type} (f : α → Option β) :
    ∀ (xs : List α) (b : β), firstSome f xs = some b →
      ∃ x, x ∈ xs ∧ f x = some b := by
  intro xs
  induction xs with
  | nil => intro b h; simp [firstSome] at h
  | cons a as ih =>
    intro b h
    unfold firstSome at h
    cases ha : f a with
    | some b' =>
      rw [ha] at h
      simp only [] at h
      exact ⟨a, List.mem_cons_self a as, ha.trans h⟩
    | none =>
      rw [ha] at h
      simp only [] at h
      obtain ⟨x, hx, hfx⟩ := ih b h
      exact ⟨x, List.mem_cons_of_mem a hx, hfx⟩

theorem scanP_spec {α : Type} (tryAt : List Char → Option (α × List Char))
    (Q : α → Prop)
    (hQ : ∀ l g r, tryAt l = some (g, r) → Q g) :
    ∀ (fuel : Nat) (l : List Char) (g : α), g ∈ scanP tryAt fuel l → Q g := by
  intro fuel
  induction fuel with
  | zero => intro l g h; simp [scanP] at h
  | succ fuel ih =>
    intro l g h
    cases l with
    | nil => simp [scanP] at h
    | cons c cs =>
      unfold scanP at h
      cases ht : tryAt (c :: cs) with
      | some gr =>
        obtain ⟨g', r⟩ := gr
        rw [ht] at h
        simp only [List.mem_cons] at h
        rcases h with h | h
        · exact h ▸ hQ _ _ _ ht
        · exact ih _ _ h
      | none =>
        rw [ht] at h
        simp only [] at h
        exact ih _ _ h

theorem findall_spec {α : Type} (tryAt : List Char → Option (α × List Char))
    (Q : α → Prop)
    (hQ : ∀ l g r, tryAt l = some (g, r) → Q g) :
    ∀ (l : List Char) (g : α), g ∈ findall tryAt l → Q g := by
  intro l g h
  exact scanP_spec tryAt Q hQ _ l g h

/-! ## The shape of captured entity groups -/

theorem alpha_not_spc {c : Char} (h : c.isAlpha = true) : isSpc c = false := by
  cases hs : isSpc c
  · rfl
  · simp only [isSpc, Bool.or_eq_true, decide_eq_true_eq] at hs
    rcases hs with ((((h1 | h1) | h1) | h1) | h1) | h1 <;> subst h1 <;> simp_all

theorem spc_not_alpha {c : Char} (h : isSpc c = true) : c.isAlpha = false := by
  cases ha : c.isAlpha
  · rfl
  · rw [alpha_not_spc ha] at h; exact absurd h (by simp)

theorem runC_letters :
    ∀ (l : List Char), l ≠ [] → (∀ c ∈ l, c.isAlpha = true) →
      ∀ st, runM cstep st l = some CSt.cword := by
  intro l
  induction l with
  | nil => intro h; exact absurd rfl h
  | cons c cs ih =>
    intro _ hall st
    have hc : c.isAlpha = true := hall c (List.mem_cons_self c cs)
    have hstep : cstep st c = some CSt.cword := by
      cases st <;> simp [cstep, hc, alpha_not_spc hc]
    rw [runM, hstep]
    cases cs with
    | nil => rfl
    | cons d ds =>
      exact ih (by simp) (fun x hx => hall x (List.mem_cons_of_mem c hx)) _

theorem runC_spaces :
    ∀ (l : List Char), l ≠ [] → (∀ c ∈ l, isSpc c = true) →
      ∀ st, st = CSt.cword ∨ st = CSt.cws →
        runM cstep st l = some CSt.cws := by
  intro l
  induction l with
  | nil => intro h; exact absurd rfl h
  | cons c cs ih =>
    intro _ hall st hst
    have hc : isSpc c = true := hall c (List.mem_cons_self c cs)
    have hca : c.isAlpha = false := spc_not_alpha hc
    have hstep : cstep st c = some CSt.cws := by
      rcases hst with h | h <;> subst h <;> simp [cstep, hc, hca]
    rw [runM, hstep]
    cases cs with
    | nil => rfl
    | cons d ds =>
      exact ih (by simp) (fun x hx => hall x (List.mem_cons_of_mem c hx)) _
        (Or.inr rfl)

theorem ciSpan_letters {l : List Char} (hne : l ≠ [])
    (hall : ∀ c ∈ l, c.isAlpha = true) : ciSpan l = true := by
  unfold ciSpan
  rw [runC_letters l hne hall]
  simp

theorem ciSpan_extend {acc sp w : List Char}
    (hacc : ciSpan acc = true)
    (hsp : sp ≠ []) (hsps : ∀ c ∈ sp, isSpc c = true)
    (hw : w ≠ []) (hwa : ∀ c ∈ w, c.isAlpha = true) :
    ciSpan (acc ++ sp ++ w) = true := by
  unfold ciSpan at hacc ⊢
  simp only [decide_eq_true_eq] at hacc ⊢
  have h1 : runM cstep CSt.cstart (acc ++ sp) = some CSt.cws := by
    rw [runM_append, hacc]
    exact runC_spaces sp hsp hsps _ (Or.inl rfl)
  rw [runM_append, h1]
  exact runC_letters w hw hwa _

theorem matchCiWord_spec {l w r : List Char}
    (h : matchCiWord l = some (w, r)) :
    w ≠ [] ∧ (∀ c ∈ w, c.isAlpha = true) ∧ ciSpan w = true := by
  unfold matchCiWord at h
  by_cases hlen : 2 ≤ (l.takeWhile (·.isAlpha)).length
  · rw [if_pos hlen] at h
    simp only [Option.some.injEq, Prod.mk.injEq] at h
    obtain ⟨hw, _⟩ := h
    subst hw
    have hne : l.takeWhile (·.isAlpha) ≠ [] := by
      intro hnil; rw [hnil] at hlen; simp at hlen
    have hall : ∀ c ∈ l.takeWhile (·.isAlpha), c.isAlpha = true :=
      fun c hc => List.mem_takeWhile_imp hc
    exact ⟨hne, hall, ciSpan_letters hne hall⟩
  · rw [if_neg hlen] at h
    exact absurd h (by simp)

theorem entCandidates_spec :
    ∀ (fuel : Nat) (acc rest : List Char), ciSpan acc = true →
      ∀ p ∈ entCandidates fuel acc rest, ciSpan p.1 = true := by
  intro fuel
  induction fuel with
  | zero =>
    intro acc rest hacc p hp
    simp only [entCandidates, List.mem_singleton] at hp
    subst hp; exact hacc
  | succ fuel ih =>
    intro acc rest hacc p hp
    simp only [entCandidates] at hp
    by_cases hsp : (rest.takeWhile isSpc).isEmpty = true
    · rw [if_pos hsp, List.mem_singleton] at hp
      subst hp; exact hacc
    · rw [if_neg hsp] at hp
      cases hw : matchCiWord (rest.dropWhile isSpc) with
      | some wr =>
        obtain ⟨w, r2⟩ := wr
        rw [hw] at hp
        simp only [List.mem_append, List.mem_singleton] at hp
        rcases hp with hp' | hp'
        · obtain ⟨hwne, hwa, _⟩ := matchCiWord_spec hw
          have hspne : rest.takeWhile isSpc ≠ [] := by
            intro hnil
            exact hsp (by rw [hnil]; rfl)
          have hsps : ∀ c ∈ rest.takeWhile isSpc, isSpc c = true :=
            fun c hc => List.mem_takeWhile_imp hc
          exact ih _ _ (ciSpan_extend hacc hspne hsps hwne hwa) _ hp'
        · subst hp'; exact hacc
      | none =>
        rw [hw] at hp
        simp only [List.mem_singleton] at hp
        subst hp; exact hacc

theorem matchEnt_spec {β : Type} {l : List Char} {k : List Char → Option β}
    {ent : List Char} {b : β}
    (h : matchEnt l k = some (ent, b)) :
    ciSpan ent = true ∧ ∃ r, k r = some b := by
  unfold matchEnt at h
  cases hw : matchCiWord l with
  | none => rw [hw] at h; exact absurd h (by simp)
  | some wr =>
    obtain ⟨w, rest⟩ := wr
    rw [hw] at h
    simp only [] at h
    obtain ⟨x, hx, hfx⟩ := firstSome_spec _ _ _ h
    cases hk : k x.2 with
    | none => rw [hk] at hfx; exact absurd hfx (by simp)
    | some b' =>
      rw [hk] at hfx
      simp only [Option.some.injEq, Prod.mk.injEq] at hfx
      obtain ⟨h1, h2⟩ := hfx
      obtain ⟨_, _, hci⟩ := matchCiWord_spec hw
      subst h1
      subst h2
      exact ⟨entCandidates_spec _ _ _ hci _ hx, x.2, hk⟩

theorem matchLow_spec {l g r : List Char} (h : matchLow l = some (g, r)) :
    ciSpan g = true := by
  unfold matchLow at h
  by_cases he : (l.takeWhile (·.isAlpha)).isEmpty = true
  · rw [if_pos he] at h
    exact absurd h (by simp)
  · rw [if_neg he] at h
    simp only [Option.some.injEq, Prod.mk.injEq] at h
    obtain ⟨h1, _⟩ := h
    subst h1
    refine ciSpan_letters ?_ (fun c hc => List.mem_takeWhile_imp hc)
    intro hnil
    exact he (by rw [hnil]; rfl)

theorem isMyTail_spec {r g rest : List Char}
    (h : isMyTail r = some (g, rest)) : ciSpan g = true := by
  unfold isMyTail at h
  repeat' split at h
  any_goals exact Option.noConfusion h
  exact matchLow_spec h

theorem areLowTail_spec {r g rest : List Char}
    (h : areLowTail r = some (g, rest)) : ciSpan g = true := by
  unfold areLowTail at h
  repeat' split at h
  any_goals exact Option.noConfusion h
  exact matchLow_spec h

theorem entFinal_spec {r g r2 : List Char}
    (h : entFinal r = some (g, r2)) : ciSpan g = true := by
  unfold entFinal at h
  exact (matchEnt_spec h).1

theorem tryP1_spec {l : List Char} {g : List Char × List Char} {r : List Char}
    (h : tryP1 l = some (g, r)) :
    ciSpan g.1 = true ∧ ciSpan g.2 = true := by
  unfold tryP1 at h
  cases hm : matchEnt l isMyTail with
  | none => rw [hm] at h; exact absurd h (by simp)
  | some eb =>
    obtain ⟨g1, g2, rest⟩ := eb
    rw [hm] at h
    simp only [Option.some.injEq, Prod.mk.injEq] at h
    obtain ⟨hg, _⟩ := h
    obtain ⟨hci, r', hk⟩ := matchEnt_spec hm
    subst hg
    exact ⟨hci, isMyTail_spec hk⟩

theorem tryP2_spec {l : List Char} {g : List Char × List Char × List Char}
    {r : List Char} (h : tryP2 l = some (g, r)) :
    ciSpan g.1 = true ∧ ciSpan g.2.1 = true ∧ ciSpan g.2.2 = true := by
  unfold tryP2 at h
  cases hm :
      matchEnt l (fun r =>
        match matchWs1 r with
        | none => none
        | some r =>
          match matchLitCi (lits "and") r with
          | none => none
          | some r =>
            match matchWs1 r with
            | none => none
            | some r => matchEnt r areLowTail) with
  | none => rw [hm] at h; exact absurd h (by simp)
  | some eb =>
    obtain ⟨g1, g2, g3, rest⟩ := eb
    rw [hm] at h
    simp only [Option.some.injEq, Prod.mk.injEq] at h
    obtain ⟨hg, _⟩ := h
    obtain ⟨hci, r', hk⟩ := matchEnt_spec hm
    subst hg
    repeat' split at hk
    any_goals exact Option.noConfusion hk
    obtain ⟨hci2, r2, hk2⟩ := matchEnt_spec hk
    exact ⟨hci, hci2, areLowTail_spec hk2⟩

theorem tryP3_spec {l : List Char} {g : List Char × List Char} {r : List Char}
    (h : tryP3 l = some (g, r)) :
    ciSpan g.1 = true ∧ ciSpan g.2 = true := by
  unfold tryP3 at h
  cases hm :
      matchEnt l (fun r =>
        match worksConn r with
        | none => none
        | some r =>
          match matchWs1 r with
          | none => none
          | some r => entFinal r) with
  | none => rw [hm] at h; exact absurd h (by simp)
  | some eb =>
    obtain ⟨g1, g2, rest⟩ := eb
    rw [hm] at h
    simp only [Option.some.injEq, Prod.mk.injEq] at h
    obtain ⟨hg, _⟩ := h
    obtain ⟨hci, r', hk⟩ := matchEnt_spec hm
    subst hg
    repeat' split at hk
    any_goals exact Option.noConfusion hk
    exact ⟨hci, entFinal_spec hk⟩

theorem tryP4_spec {l : List Char} {g : List Char × List Char} {r : List Char}
    (h : tryP4 l = some (g, r)) :
    ciSpan g.1 = true ∧ ciSpan g.2 = true := by
  unfold tryP4 at h
  cases hm :
      matchEnt l (fun r =>
        match matchWs1 r with
        | none => none
        | some r =>
          match matchLitCi (lits "know") r with
          | none => none
          | some r =>
            match matchWs1 (matchOptS r) with
            | none => none
            | some r => entFinal r) with
  | none => rw [hm] at h; exact absurd h (by simp)
  | some eb =>
    obtain ⟨g1, g2, rest⟩ := eb
    rw [hm] at h
    simp only [Option.some.injEq, Prod.mk.injEq] at h
    obtain ⟨hg, _⟩ := h
    obtain ⟨hci, r', hk⟩ := matchEnt_spec hm
    subst hg
    repeat' split at hk
    any_goals exact Option.noConfusion hk
    exact ⟨hci, entFinal_spec hk⟩

theorem tryP5_spec {l : List Char} {g : List Char × List Char} {r : List Char}
    (h : tryP5 l = some (g, r)) :
    ciSpan g.1 = true ∧ ciSpan g.2 = true := by
  unfold tryP5 at h
  cases hm :
      matchEnt l (fun r =>
        match matchWs1 r with
        | none => none
        | some r =>
          match matchMet r with
          | none => none
          | some r =>
            match matchWs1 r with
            | none => none
            | some r => entFinal r) with
  | none => rw [hm] at h; exact absurd h (by simp)
  | some eb =>
    obtain ⟨g1, g2, rest⟩ := eb
    rw [hm] at h
    simp only [Option.some.injEq, Prod.mk.injEq] at h
    obtain ⟨hg, _⟩ := h
    obtain ⟨hci, r', hk⟩ := matchEnt_spec hm
    subst hg
    repeat' split at hk
    any_goals exact Option.noConfusion hk
    exact ⟨hci, entFinal_spec hk⟩

theorem tryR1_spec {l g rest : List Char}
    (h : tryR1 l = some (g, rest)) : ciSpan g = true := by
  unfold tryR1 at h
  repeat' split at h
  any_goals exact Option.noConfusion h
  exact isMyTail_spec h

theorem tryR2_spec {l : List Char} {g : List Char × List Char} {r : List Char}
    (h : tryR2 l = some (g, r)) :
    ciSpan g.1 = true ∧ ciSpan g.2 = true := by
  unfold tryR2 at h
  repeat' split at h
  any_goals exact Option.noConfusion h
  case _ heq =>
    simp only [Option.some.injEq, Prod.mk.injEq] at h
    obtain ⟨hg, _⟩ := h
    obtain ⟨hci, r2, hk2⟩ := matchEnt_spec heq
    subst hg
    exact ⟨hci, areLowTail_spec hk2⟩

theorem tryR3_spec {l : List Char} {g : List Char × List Char} {r : List Char}
    (h : tryR3 l = some (g, r)) :
    ciSpan g.1 = true ∧ ciSpan g.2 = true := by
  unfold tryR3 at h
  cases hm :
      matchEnt l (fun r =>
        match matchWs1 r with
        | none => none
        | some r =>
          match matchLitCi (lits "and") r with
          | none => none
          | some r =>
            match matchWs1 r with
            | none => none
            | some r =>
              match matchLitCi (lits "redacted") r with
              | none => none
              | some r => areLowTail r) with
  | none => rw [hm] at h; exact absurd h (by simp)
  | some eb =>
    obtain ⟨g1, g2, rest⟩ := eb
    rw [hm] at h
    simp only [Option.some.injEq, Prod.mk.injEq] at h
    obtain ⟨hg, _⟩ := h
    obtain ⟨hci, r', hk⟩ := matchEnt_spec hm
    subst hg
    repeat' split at hk
    any_goals exact Option.noConfusion hk
    exact ⟨hci, areLowTail_spec hk⟩

theorem tryR4_spec {l g rest : List Char}
    (h : tryR4 l = some (g, rest)) : ciSpan g = true := by
  unfold tryR4 at h
  repeat' split at h
  any_goals exact Option.noConfusion h
  exact entFinal_spec h

theorem tryR5_spec {l g rest : List Char}
    (h : tryR5 l = some (g, rest)) : ciSpan g = true := by
  unfold tryR5 at h
  cases hm :
      matchEnt l (fun r =>
        match worksConn r with
        | none => none
        | some r =>
          match matchWs1 r with
          | none => none
          | some r => matchLitCi (lits "redacted") r) with
  | none => rw [hm] at h; exact absurd h (by simp)
  | some eb =>
    obtain ⟨g1, rest'⟩ := eb
    rw [hm] at h
    simp only [Option.some.injEq, Prod.mk.injEq] at h
    obtain ⟨hg, _⟩ := h
    obtain ⟨hci, r', hk⟩ := matchEnt_spec hm
    subst hg
    exact hci

/-- Every component of every extracted relationship tuple is, under
`re.IGNORECASE`, a case-insensitive letter span (letter runs separated by
whitespace runs) — in particular entity groups are matched
case-insensitively, not only the connecting words. -/
theorem extractRels_parts (t : String) (r : Rel) (hr : r ∈ extractRels t)
    (s : String) (hs : s ∈ relParts r) : ciSpan s.data = true := by
  have hred : ciSpan (String.data "REDACTED") = true := by decide
  unfold extractRels at hr
  simp only [List.mem_append] at hr
  rcases hr with ((((((((h | h) | h) | h) | h) | h) | h) | h) | h) | h
  · obtain ⟨g, hg, hfg⟩ := List.mem_map.mp h
    have hq := findall_spec tryP1
      (fun g => ciSpan g.1 = true ∧ ciSpan g.2 = true)
      (fun _ _ _ hh => tryP1_spec hh) _ _ hg
    subst hfg
    simp only [relParts, List.mem_cons, List.not_mem_nil, or_false] at hs
    rcases hs with h1 | h1 <;> subst h1
    · exact hq.1
    · exact hq.2
  · obtain ⟨g, hg, hfg⟩ := List.mem_map.mp h
    have hq := findall_spec tryP2
      (fun g => ciSpan g.1 = true ∧ ciSpan g.2.1 = true ∧ ciSpan g.2.2 = true)
      (fun _ _ _ hh => tryP2_spec hh) _ _ hg
    subst hfg
    simp only [relParts, List.mem_cons, List.not_mem_nil, or_false] at hs
    rcases hs with h1 | h1 | h1 <;> subst h1
    · exact hq.1
    · exact hq.2.1
    · exact hq.2.2
  · obtain ⟨g, hg, hfg⟩ := List.mem_map.mp h
    have hq := findall_spec tryP3
      (fun g => ciSpan g.1 = true ∧ ciSpan g.2 = true)
      (fun _ _ _ hh => tryP3_spec hh) _ _ hg
    subst hfg
    simp only [relParts, List.mem_cons, List.not_mem_nil, or_false] at hs
    rcases hs with h1 | h1 <;> subst h1
    · exact hq.1
    · exact hq.2
  · obtain ⟨g, hg, hfg⟩ := List.mem_map.mp h
    have hq := findall_spec tryP4
      (fun g => ciSpan g.1 = true ∧ ciSpan g.2 = true)
      (fun _ _ _ hh => tryP4_spec hh) _ _ hg
    subst hfg
    simp only [relParts, List.mem_cons, List.not_mem_nil, or_false] at hs
    rcases hs with h1 | h1 <;> subst h1
    · exact hq.1
    · exact hq.2
  · obtain ⟨g, hg, hfg⟩ := List.mem_map.mp h
    have hq := findall_spec tryP5
      (fun g => ciSpan g.1 = true ∧ ciSpan g.2 = true)
      (fun _ _ _ hh => tryP5_spec hh) _ _ hg
    subst hfg
    simp only [relParts, List.mem_cons, List.not_mem_nil, or_false] at hs
    rcases hs with h1 | h1 <;> subst h1
    · exact hq.1
    · exact hq.2
  · obtain ⟨g, hg, hfg⟩ := List.mem_map.mp h
    have hq := findall_spec tryR1 (fun g => ciSpan g = true)
      (fun _ _ _ hh => tryR1_spec hh) _ _ hg
    subst hfg
    simp only [relParts, List.mem_cons, List.not_mem_nil, or_false] at hs
    rcases hs with h1 | h1 <;> subst h1
    · exact hred
    · exact hq
  · obtain ⟨g, hg, hfg⟩ := List.mem_map.mp h
    have hq := findall_spec tryR2
      (fun g => ciSpan g.1 = true ∧ ciSpan g.2 = true)
      (fun _ _ _ hh => tryR2_spec hh) _ _ hg
    subst hfg
    simp only [relParts, List.mem_cons, List.not_mem_nil, or_false] at hs
    rcases hs with h1 | h1 <;> subst h1
    · exact hq.1
    · exact hq.2
  · obtain ⟨g, hg, hfg⟩ := List.mem_map.mp h
    have hq := findall_spec tryR3
      (fun g => ciSpan g.1 = true ∧ ciSpan g.2 = true)
      (fun _ _ _ hh => tryR3_spec hh) _ _ hg
    subst hfg
    simp only [relParts, List.mem_cons, List.not_mem_nil, or_false] at hs
    rcases hs with h1 | h1 <;> subst h1
    · exact hq.1
    · exact hq.2
  · obtain ⟨g, hg, hfg⟩ := List.mem_map.mp h
    have hq := findall_spec tryR4 (fun g => ciSpan g = true)
      (fun _ _ _ hh => tryR4_spec hh) _ _ hg
    subst hfg
    simp only [relParts, List.mem_cons, List.not_mem_nil, or_false] at hs
    rcases hs with h1 | h1 <;> subst h1
    · exact hred
    · exact hq
  · obtain ⟨g, hg, hfg⟩ := List.mem_map.mp h
    have hq := findall_spec tryR5 (fun g => ciSpan g = true)
      (fun _ _ _ hh => tryR5_spec hh) _ _ hg
    subst hfg
    simp only [relParts, List.mem_cons, List.not_mem_nil, or_false] at hs
    rcases hs with h1 | h1 <;> subst h1
    · exact hred
    · exact hq

/-! ## The shape of classified names -/

theorem upper_alpha {c : Char} (h : c.isUpper = true) : c.isAlpha = true := by
  simp [Char.isAlpha, h]

theorem not_alpha_not_lower {c : Char} (h : c.isAlpha = false) :
    c.isLower = false := by
  simp only [Char.isAlpha, Bool.or_eq_false_iff] at h
  exact h.2

theorem spc_not_lower {c : Char} (h : isSpc c = true) : c.isLower = false :=
  not_alpha_not_lower (spc_not_alpha h)

theorem upper_not_spc {c : Char} (h : c.isUpper = true) : isSpc c = false :=
  alpha_not_spc (upper_alpha h)

theorem runN_lowers (m : Nat) :
    ∀ (low : List Char), (∀ c ∈ low, c.isLower = true) →
      ∀ k, runM (nstep m) (NSt.word k) low =
        some (NSt.word (k + low.length)) := by
  intro low
  induction low with
  | nil => intro _ k; rfl
  | cons c cs ih =>
    intro hall k
    have hc : c.isLower = true := hall c (List.mem_cons_self c cs)
    have hstep : nstep m (NSt.word k) c = some (NSt.word (k + 1)) := by
      simp [nstep, hc]
    rw [runM, hstep]
    simp only []
    rw [ih (fun x hx => hall x (List.mem_cons_of_mem c hx)) (k + 1)]
    congr 2
    simp only [List.length_cons]
    omega

theorem runN_word (m : Nat) {c : Char} {low : List Char}
    (hc : c.isUpper = true) (hlow : ∀ x ∈ low, x.isLower = true) :
    runM (nstep m) NSt.start (c :: low) = some (NSt.word low.length) := by
  have hstep : nstep m NSt.start c = some (NSt.word 0) := by simp [nstep, hc]
  rw [runM, hstep]
  simp only []
  rw [runN_lowers m low hlow 0]
  congr 2
  omega

theorem runN_word_ws (m : Nat) {c : Char} {low : List Char}
    (hc : c.isUpper = true) (hlow : ∀ x ∈ low, x.isLower = true) :
    runM (nstep m) NSt.ws (c :: low) = some (NSt.word low.length) := by
  have hstep : nstep m NSt.ws c = some (NSt.word 0) := by
    simp [nstep, hc, upper_not_spc hc]
  rw [runM, hstep]
  simp only []
  rw [runN_lowers m low hlow 0]
  congr 2
  omega

theorem runN_ws_spaces (m : Nat) :
    ∀ (sp : List Char), (∀ c ∈ sp, isSpc c = true) →
      runM (nstep m) NSt.ws sp = some NSt.ws := by
  intro sp
  induction sp with
  | nil => intro _; rfl
  | cons c cs ih =>
    intro hall
    have hc : isSpc c = true := hall c (List.mem_cons_self c cs)
    have hstep : nstep m NSt.ws c = some NSt.ws := by simp [nstep, hc]
    rw [runM, hstep]
    exact ih (fun x hx => hall x (List.mem_cons_of_mem c hx))

theorem runN_spaces (m : Nat) {sp : List Char} (hne : sp ≠ [])
    (hall : ∀ c ∈ sp, isSpc c = true) {k : Nat} (hk : m ≤ k) :
    runM (nstep m) (NSt.word k) sp = some NSt.ws := by
  cases sp with
  | nil => exact absurd rfl hne
  | cons c cs =>
    have hc : isSpc c = true := hall c (List.mem_cons_self c cs)
    have hstep : nstep m (NSt.word k) c = some NSt.ws := by
      simp [nstep, hc, spc_not_lower hc, hk]
    rw [runM, hstep]
    exact runN_ws_spaces m cs (fun x hx => hall x (List.mem_cons_of_mem c hx))

theorem nameFull_extend {m : Nat} {acc sp : List Char} {c : Char}
    {low : List Char}
    (hacc : nameFull m acc = true)
    (hsp : sp ≠ []) (hsps : ∀ x ∈ sp, isSpc x = true)
    (hc : c.isUpper = true) (hlow : ∀ x ∈ low, x.isLower = true)
    (hm : m ≤ low.length) :
    nameFull m (acc ++ sp ++ (c :: low)) = true := by
  obtain ⟨k, hrun, hk⟩ := (nameFull_iff m acc).mp hacc
  refine (nameFull_iff m _).mpr ⟨low.length, ?_, hm⟩
  have h1 : runM (nstep m) NSt.start (acc ++ sp) = some NSt.ws := by
    rw [runM_append, hrun]
    exact runN_spaces m hsp hsps hk
  rw [runM_append, h1]
  exact runN_word_ws m hc hlow

theorem matchWordU_spec {m : Nat} {l w r : List Char}
    (h : matchWordU m l = some (w, r)) :
    ∃ c low, w = c :: low ∧ c.isUpper = true ∧
      (∀ x ∈ low, x.isLower = true) ∧ m ≤ low.length := by
  cases l with
  | nil => simp [matchWordU] at h
  | cons c cs =>
    simp only [matchWordU] at h
    by_cases hc : c.isUpper = true
    · rw [if_pos hc] at h
      by_cases hlen : m ≤ (cs.takeWhile (fun x => x.isLower)).length
      · rw [if_pos hlen] at h
        simp only [Option.some.injEq, Prod.mk.injEq] at h
        obtain ⟨hw, _⟩ := h
        exact ⟨c, cs.takeWhile (fun x => x.isLower), hw.symm, hc,
          fun x hx => List.mem_takeWhile_imp hx, hlen⟩
      · rw [if_neg hlen] at h
        exact absurd h (by simp)
    · rw [if_neg hc] at h
      exact absurd h (by simp)

theorem extendChain_spec {m : Nat} :
    ∀ (fuel : Nat) (prev : Option (List Char × List Char))
      (acc rest : List Char),
      nameFull m acc = true →
      (∀ pr, prev = some pr → nameFull m pr.1 = true) →
      nameFull m (extendChain m fuel prev acc rest).2.1 = true ∧
      (∀ pr, (extendChain m fuel prev acc rest).1 = some pr →
        nameFull m pr.1 = true) := by
  intro fuel
  induction fuel with
  | zero => intro prev acc rest hacc hprev; exact ⟨hacc, hprev⟩
  | succ fuel ih =>
    intro prev acc rest hacc hprev
    simp only [extendChain]
    by_cases hsp : (rest.takeWhile isSpc).isEmpty = true
    · rw [if_pos hsp]
      exact ⟨hacc, hprev⟩
    · rw [if_neg hsp]
      cases hw : matchWordU m (rest.dropWhile isSpc) with
      | some wr =>
        obtain ⟨w, r2⟩ := wr
        obtain ⟨c, low, hwcl, hc, hlow, hm⟩ := matchWordU_spec hw
        subst hwcl
        refine ih _ _ _ ?_ ?_
        · exact nameFull_extend hacc
            (fun hnil => hsp (by rw [hnil]; rfl))
            (fun x hx => List.mem_takeWhile_imp hx) hc hlow hm
        · intro pr hpr
          cases hpr
          exact hacc
      | none => exact ⟨hacc, hprev⟩

theorem tryNameMatch_spec {m : Nat} {l w r : List Char}
    (h : tryNameMatch m l = some (w, r)) : nameFull m w = true := by
  unfold tryNameMatch at h
  cases hw : matchWordU m l with
  | none => rw [hw] at h; exact absurd h (by simp)
  | some wr =>
    obtain ⟨w0, rest⟩ := wr
    rw [hw] at h
    simp only [] at h
    obtain ⟨c, low, hwcl, hc, hlow, hm⟩ := matchWordU_spec hw
    have hbase : nameFull m w0 = true := by
      subst hwcl
      exact (nameFull_iff m _).mpr ⟨low.length, runN_word m hc hlow, hm⟩
    have hspec := extendChain_spec rest.length none w0 rest hbase
      (fun pr hpr => Option.noConfusion hpr)
    cases hec : extendChain m rest.length none w0 rest with
    | mk prev rest' =>
      obtain ⟨acc, rest2⟩ := rest'
      rw [hec] at h hspec
      simp only [] at h hspec
      by_cases hb : bAfter rest2 = true
      · rw [if_pos hb] at h
        simp only [Option.some.injEq, Prod.mk.injEq] at h
        obtain ⟨hwa, _⟩ := h
        subst hwa
        exact hspec.1
      · rw [if_neg hb] at h
        cases prev with
        | some pr =>
          simp only [Option.some.injEq] at h
          have hpr := hspec.2 pr rfl
          rw [h] at hpr
          exact hpr
        | none => exact absurd h (by simp)

theorem nameScan_spec {m : Nat} :
    ∀ (fuel : Nat) (bnd : Bool) (l : List Char) (w : List Char),
      w ∈ nameScan m fuel bnd l → nameFull m w = true := by
  intro fuel
  induction fuel with
  | zero => intro bnd l w h; simp [nameScan] at h
  | succ fuel ih =>
    intro bnd l w h
    cases l with
    | nil => simp [nameScan] at h
    | cons c cs =>
      unfold nameScan at h
      by_cases hb : bnd = true
      · rw [if_pos hb] at h
        cases ht : tryNameMatch m (c :: cs) with
        | some wr =>
          obtain ⟨w0, rest⟩ := wr
          rw [ht] at h
          simp only [List.mem_cons] at h
          rcases h with h | h
          · subst h; exact tryNameMatch_spec ht
          · exact ih _ _ _ h
        | none =>
          rw [ht] at h
          simp only [] at h
          exact ih _ _ _ h
      · rw [if_neg hb] at h
        exact ih _ _ _ h

theorem potentialNames_spec {m : Nat} {t : String} {w : List Char}
    (h : w ∈ potentialNames m t) : nameFull m w = true :=
  nameScan_spec _ _ _ _ h

theorem pySetAdd_mem {s : List String} {x y : String}
    (h : y ∈ pySetAdd s x) : y ∈ s ∨ y = x := by
  unfold pySetAdd at h
  by_cases hx : x ∈ s
  · rw [if_pos hx] at h; exact Or.inl h
  · rw [if_neg hx] at h
    rcases List.mem_append.mp h with h | h
    · exact Or.inl h
    · exact Or.inr (List.mem_singleton.mp h)

theorem namesStep_mem {stop : List String} {acc : List String}
    {n : List Char} {s : String} (h : s ∈ namesStep stop acc n) :
    s ∈ acc ∨ (s = ⟨n⟩ ∧ s ∉ stop ∧ 2 < s.length) := by
  simp only [namesStep] at h
  by_cases hc : (⟨n⟩ : String) ∉ stop ∧ 2 < (⟨n⟩ : String).length
  · rw [if_pos hc] at h
    rcases pySetAdd_mem h with h | h
    · exact Or.inl h
    · subst h; exact Or.inr ⟨rfl, hc⟩
  · rw [if_neg hc] at h
    exact Or.inl h

theorem foldl_namesStep_mem (stop : List String) :
    ∀ (cands : List (List Char)) (acc : List String) (s : String),
      s ∈ cands.foldl (namesStep stop) acc →
      s ∈ acc ∨ ∃ n, n ∈ cands ∧ s = ⟨n⟩ ∧ s ∉ stop ∧ 2 < s.length := by
  intro cands
  induction cands with
  | nil => intro acc s h; exact Or.inl h
  | cons n ns ih =>
    intro acc s h
    rw [List.foldl_cons] at h
    rcases ih _ _ h with h2 | h2
    · rcases namesStep_mem h2 with h3 | h3
      · exact Or.inl h3
      · exact Or.inr ⟨n, List.mem_cons_self n ns, h3⟩
    · obtain ⟨n2, hn2, hs⟩ := h2
      exact Or.inr ⟨n2, List.mem_cons_of_mem _ hn2, hs⟩

theorem namesFilter_spec {stop : List String} {cands : List (List Char)}
    {s : String} (h : s ∈ namesFilter stop cands) :
    ∃ n, n ∈ cands ∧ s = ⟨n⟩ ∧ s ∉ stop ∧ 2 < s.length := by
  rcases foldl_namesStep_mem stop cands [] s h with h2 | h2
  · exact absurd h2 (List.not_mem_nil s)
  · exact h2

/-! ## Counting REDACTED occurrences

The literal `"redacted"` has no nontrivial case-insensitive border (no
proper prefix equals a proper suffix), so the non-overlapping
`re.findall` count equals the number of positions at which a
case-insensitive occurrence starts. -/

theorem matchLitCi_decomp :
    ∀ (lit l r : List Char), matchLitCi lit l = some r →
      ∃ pre, l = pre ++ r ∧ pre.map lc = lit.map lc := by
  intro lit
  induction lit with
  | nil =>
    intro l r h
    simp only [matchLitCi, Option.some.injEq] at h
    subst h
    exact ⟨[], rfl, rfl⟩
  | cons p ps ih =>
    intro l r h
    cases l with
    | nil => simp [matchLitCi] at h
    | cons c cs =>
      simp only [matchLitCi] at h
      by_cases hc : lc c = lc p
      · rw [if_pos hc] at h
        obtain ⟨pre, hpre, hmap⟩ := ih cs r h
        refine ⟨c :: pre, by rw [List.cons_append, hpre], ?_⟩
        simp only [List.map_cons, hmap, hc]
      · rw [if_neg hc] at h
        exact absurd h (by simp)

theorem matchLitCi_red_none {c : Char} (cs : List Char)
    (hne : lc c ≠ 'r') : matchLitCi redLit (c :: cs) = none := by
  have hcond : ¬ (lc c = lc 'r') := fun h => hne (h.trans (by decide))
  have hr : redLit = 'r' :: lits "edacted" := rfl
  rw [hr]
  simp only [matchLitCi]
  rw [if_neg hcond]

theorem posCount_skip :
    ∀ (pre rest : List Char), (∀ c ∈ pre, lc c ≠ 'r') →
      posCount (pre ++ rest) = posCount rest := by
  intro pre
  induction pre with
  | nil => intro rest _; rfl
  | cons c cs ih =>
    intro rest hall
    have h1 : matchLitCi redLit (c :: (cs ++ rest)) = none :=
      matchLitCi_red_none _ (hall c (List.mem_cons_self c cs))
    rw [List.cons_append, posCount, h1]
    simp only [Option.isSome_none, Bool.false_eq_true, if_false, Nat.zero_add]
    exact ih rest (fun x hx => hall x (List.mem_cons_of_mem c hx))

theorem redLit_map_lc : redLit.map lc = redLit := by decide

theorem goRed_eq_posCount :
    ∀ (fuel : Nat) (l : List Char), l.length ≤ fuel →
      goRed fuel l = posCount l := by
  intro fuel
  induction fuel with
  | zero =>
    intro l hl
    cases l with
    | nil => rfl
    | cons c cs => simp at hl
  | succ fuel ih =>
    intro l hl
    cases l with
    | nil => rfl
    | cons c cs =>
      unfold goRed
      cases hm : matchLitCi redLit (c :: cs) with
      | some rest =>
        obtain ⟨pre, hpre, hmap⟩ := matchLitCi_decomp _ _ _ hm
        rw [redLit_map_lc] at hmap
        have hlen : pre.length = 8 := by
          have hlpre := congrArg List.length hmap
          simp only [List.length_map] at hlpre
          rw [hlpre]
          rfl
        cases pre with
        | nil => rw [List.length_nil] at hlen; exact absurd hlen (by simp)
        | cons p0 ptail =>
          have hptlen : ptail.length = 7 := by
            rw [List.length_cons] at hlen
            omega
          have hptmap : ptail.map lc = lits "edacted" := by
            have hred : redLit = 'r' :: lits "edacted" := rfl
            rw [hred, List.map_cons] at hmap
            exact (List.cons.injEq .. ▸ hmap).2
          have hcs : cs = ptail ++ rest := by
            rw [List.cons_append] at hpre
            exact (List.cons.injEq .. ▸ hpre).2
          have hmem : ∀ x ∈ ptail, lc x ≠ 'r' := by
            intro x hx hxr
            have hmm : lc x ∈ List.map lc ptail := List.mem_map_of_mem lc hx
            rw [hptmap, hxr] at hmm
            exact absurd hmm (by decide)
          have hrl : rest.length ≤ fuel := by
            have h2 : cs.length = ptail.length + rest.length := by
              rw [hcs, List.length_append]
            have h3 : (c :: cs).length = cs.length + 1 := List.length_cons c cs
            omega
          simp only []
          rw [ih rest hrl]
          have hpc : posCount (c :: cs) = 1 + posCount cs := by
            rw [posCount, hm]
            simp
          rw [hpc, hcs, posCount_skip ptail rest hmem]
      | none =>
        simp only []
        have hcl : cs.length ≤ fuel := by
          have h3 : (c :: cs).length = cs.length + 1 := List.length_cons c cs
          omega
        rw [ih cs hcl]
        have hpc : posCount (c :: cs) = 0 + posCount cs := by
          rw [posCount, hm]
          simp
        rw [hpc, Nat.zero_add]

theorem redactedCount_eq (t : String) : redactedCount t = posCount t.data :=
  goRed_eq_posCount t.data.length t.data (Nat.le_refl _)

/-! ## Sorting lemmas (Python `sorted`) -/

theorem lexLt_asymm :
    ∀ (a b : List Char), lexLt a b = true → lexLt b a = false := by
  intro a
  induction a with
  | nil =>
    intro b h
    cases b with
    | nil => simp [lexLt] at h
    | cons y ys => rfl
  | cons x xs ih =>
    intro b h
    cases b with
    | nil => simp [lexLt] at h
    | cons y ys =>
      simp only [lexLt] at h ⊢
      by_cases hxy : x < y
      · have hyx : ¬ y < x := by
          have h1 : x.toNat < y.toNat := hxy
          intro hyx
          have h2 : y.toNat < x.toNat := hyx
          omega
        rw [if_neg hyx, if_pos hxy]
      · rw [if_neg hxy] at h
        by_cases hyx : y < x
        · rw [if_pos hyx] at h
          exact absurd h (by simp)
        · rw [if_neg hyx] at h
          rw [if_neg hyx, if_neg hxy]
          exact ih ys h

theorem char_eq_of_toNat {a b : Char} (h : a.toNat = b.toNat) : a = b :=
  Char.eq_of_val_eq (UInt32.ext h)

theorem lexLt_eq :
    ∀ (a b : List Char), lexLt a b = false → lexLt b a = false → a = b := by
  intro a
  induction a with
  | nil =>
    intro b h1 _
    cases b with
    | nil => rfl
    | cons y ys => simp [lexLt] at h1
  | cons x xs ih =>
    intro b h1 h2
    cases b with
    | nil => simp [lexLt] at h2
    | cons y ys =>
      simp only [lexLt] at h1 h2
      by_cases hxy : x < y
      · rw [if_pos hxy] at h1
        exact absurd h1 (by simp)
      · rw [if_neg hxy] at h1
        by_cases hyx : y < x
        · rw [if_pos hyx] at h2
          exact absurd h2 (by simp)
        · rw [if_neg hyx] at h1
          rw [if_neg hyx, if_neg hxy] at h2
          have hxy2 : x = y := by
            apply char_eq_of_toNat
            have hn1 : ¬ x.toNat < y.toNat := hxy
            have hn2 : ¬ y.toNat < x.toNat := hyx
            omega
          rw [hxy2, ih ys h1 h2]

theorem lexLt_trans :
    ∀ (a b c : List Char), lexLt a b = true → lexLt b c = true →
      lexLt a c = true := by
  intro a
  induction a with
  | nil =>
    intro b c hab hbc
    cases c with
    | nil =>
      cases b with
      | nil => simp [lexLt] at hab
      | cons y ys => simp [lexLt] at hbc
    | cons z zs => rfl
  | cons x xs ih =>
    intro b c hab hbc
    cases b with
    | nil => simp [lexLt] at hab
    | cons y ys =>
      cases c with
      | nil => simp [lexLt] at hbc
      | cons z zs =>
        simp only [lexLt] at hab hbc ⊢
        by_cases hxy : x < y
        · have h1 : x.toNat < y.toNat := hxy
          by_cases hyz : y < z
          · have h2 : y.toNat < z.toNat := hyz
            rw [if_pos (show x < z from show x.toNat < z.toNat by omega)]
          · rw [if_neg hyz] at hbc
            by_cases hzy : z < y
            · rw [if_pos hzy] at hbc
              exact absurd hbc (by simp)
            · have hn1 : ¬ y.toNat < z.toNat := hyz
              have hn2 : ¬ z.toNat < y.toNat := hzy
              rw [if_pos (show x < z from show x.toNat < z.toNat by omega)]
        · rw [if_neg hxy] at hab
          by_cases hyx : y < x
          · rw [if_pos hyx] at hab
            exact absurd hab (by simp)
          · rw [if_neg hyx] at hab
            have hn1 : ¬ x.toNat < y.toNat := hxy
            have hn2 : ¬ y.toNat < x.toNat := hyx
            by_cases hyz : y < z
            · have h2 : y.toNat < z.toNat := hyz
              rw [if_pos (show x < z from show x.toNat < z.toNat by omega)]
            · rw [if_neg hyz] at hbc
              by_cases hzy : z < y
              · rw [if_pos hzy] at hbc
                exact absurd hbc (by simp)
              · rw [if_neg hzy] at hbc
                have hn3 : ¬ y.toNat < z.toNat := hyz
                have hn4 : ¬ z.toNat < y.toNat := hzy
                have hxz : ¬ x < z := by
                  intro hxz
                  have h5 : x.toNat < z.toNat := hxz
                  omega
                have hzx : ¬ z < x := by
                  intro hzx
                  have h5 : z.toNat < x.toNat := hzx
                  omega
                rw [if_neg hxz, if_neg hzx]
                exact ih ys zs hab hbc

theorem strLe_total (a b : String) : strLe a b = true ∨ strLe b a = true := by
  cases h : lexLt b.data a.data
  · left
    unfold strLe
    rw [h]
    rfl
  · right
    unfold strLe
    rw [lexLt_asymm _ _ h]
    rfl

theorem strLe_trans {a b c : String} (h1 : strLe a b = true)
    (h2 : strLe b c = true) : strLe a c = true := by
  unfold strLe at h1 h2 ⊢
  simp only [Bool.not_eq_true'] at h1 h2 ⊢
  cases h3 : lexLt c.data a.data
  · rfl
  · exfalso
    cases h4 : lexLt b.data c.data
    · have heq : c.data = b.data := lexLt_eq _ _ h2 h4
      rw [heq] at h3
      rw [h3] at h1
      exact absurd h1 (by simp)
    · have h5 := lexLt_trans _ _ _ h4 h3
      rw [h5] at h1
      exact absurd h1 (by simp)

theorem mem_insertSorted (x : String) :
    ∀ (l : List String) (y : String),
      y ∈ insertSorted x l ↔ y = x ∨ y ∈ l := by
  intro l
  induction l with
  | nil => intro y; simp [insertSorted]
  | cons z zs ih =>
    intro y
    unfold insertSorted
    by_cases h : strLe x z = true
    · rw [if_pos h]
      simp only [List.mem_cons]
      try tauto
    · rw [if_neg h]
      simp only [List.mem_cons, ih y]
      try tauto

theorem mem_sortStrs :
    ∀ (l : List String) (y : String), y ∈ sortStrs l ↔ y ∈ l := by
  intro l
  induction l with
  | nil => intro y; simp [sortStrs]
  | cons x xs ih =>
    intro y
    rw [sortStrs, mem_insertSorted, ih y, List.mem_cons]

theorem pairwise_insertSorted (x : String) :
    ∀ (l : List String),
      l.Pairwise (fun a b => strLe a b = true) →
      (insertSorted x l).Pairwise (fun a b => strLe a b = true) := by
  intro l
  induction l with
  | nil => intro _; simp [insertSorted]
  | cons z zs ih =>
    intro hp
    obtain ⟨hz, hzs⟩ := List.pairwise_cons.mp hp
    unfold insertSorted
    by_cases h : strLe x z = true
    · rw [if_pos h]
      refine List.pairwise_cons.mpr ⟨?_, hp⟩
      intro b hb
      rcases List.mem_cons.mp hb with hb | hb
      · rw [hb]; exact h
      · exact strLe_trans h (hz b hb)
    · rw [if_neg h]
      refine List.pairwise_cons.mpr ⟨?_, ih hzs⟩
      intro b hb
      rcases (mem_insertSorted x zs b).mp hb with hb | hb
      · subst hb
        rcases strLe_total b z with ht | ht
        · exact absurd ht h
        · exact ht
      · exact hz b hb

theorem sortStrs_pairwise :
    ∀ (l : List String),
      (sortStrs l).Pairwise (fun a b => strLe a b = true) := by
  intro l
  induction l with
  | nil => simp [sortStrs]
  | cons x xs ih => exact pairwise_insertSorted x (sortStrs xs) ih

theorem bulletLine_inj {a b : String} (h : bulletLine a = bulletLine b) :
    a = b := by
  unfold bulletLine at h
  have hd := congrArg String.data h
  rw [String.data_append, String.data_append] at hd
  have hab := List.append_cancel_left hd
  cases a
  cases b
  exact congrArg String.mk hab

/-! ## Monotonicity of the name pattern in the word-length parameter -/

theorem nstep_mono {st st' : NSt} {c : Char} (h : nstep 2 st c = some st') :
    nstep 1 st c = some st' := by
  cases st with
  | start => exact h
  | word k =>
    simp only [nstep] at h ⊢
    by_cases hl : c.isLower = true
    · rw [if_pos hl] at h ⊢
      exact h
    · rw [if_neg hl] at h ⊢
      by_cases hs : isSpc c = true
      · rw [if_pos hs] at h ⊢
        by_cases hk : 2 ≤ k
        · rw [if_pos hk] at h
          rw [if_pos (show 1 ≤ k by omega)]
          exact h
        · rw [if_neg hk] at h
          exact absurd h (by simp)
      · rw [if_neg hs] at h
        exact absurd h (by simp)
  | ws => exact h

theorem runN_mono :
    ∀ (l : List Char) (st st' : NSt),
      runM (nstep 2) st l = some st' → runM (nstep 1) st l = some st' := by
  intro l
  induction l with
  | nil => intro st st' h; exact h
  | cons c cs ih =>
    intro st st' h
    rw [runM] at h ⊢
    cases h2 : nstep 2 st c with
    | none => rw [h2] at h; exact absurd h (by simp)
    | some stm =>
      rw [h2] at h
      simp only [] at h
      rw [nstep_mono h2]
      simp only []
      exact ih _ _ h

theorem nameFull_mono {l : List Char} (h : nameFull 2 l = true) :
    nameFull 1 l = true := by
  obtain ⟨k, hrun, hk⟩ := (nameFull_iff 2 l).mp h
  exact (nameFull_iff 1 l).mpr ⟨k, runN_mono l _ _ hrun, by omega⟩

/-! ## The claims -/

/-- Claim C1: for every input text, every string in the names set of
either script matches that script's capitalized-word-sequence pattern
(with the script's minimum trailing-lowercase count), is not a member of
that script's stoplist, and has length at least 3. -/
theorem claim_C1 (t : String) (s : String) :
    (s ∈ extractNames1 t →
      nameFull 1 s.data = true ∧ s ∉ commonWords1 ∧ 3 ≤ s.length) ∧
    (s ∈ extractNames2 t →
      nameFull 2 s.data = true ∧ s ∉ commonWords2 ∧ 3 ≤ s.length) := by
  constructor
  · intro h
    obtain ⟨n, hn, hs, hstop, hlen⟩ := namesFilter_spec h
    subst hs
    exact ⟨potentialNames_spec hn, hstop, by omega⟩
  · intro h
    obtain ⟨n, hn, hs, hstop, hlen⟩ := namesFilter_spec h
    subst hs
    exact ⟨potentialNames_spec hn, hstop, by omega⟩

/-- Witness for C1 at the text "John met Uma": the name "John" is
classified by both scripts and has the three claimed properties. -/
theorem claim_C1_witness :
    ("John" ∈ extractNames1 "John met Uma" ∧
      nameFull 1 (lits "John") = true ∧ "John" ∉ commonWords1 ∧
      3 ≤ String.length "John") ∧
    ("John" ∈ extractNames2 "John met Uma" ∧
      nameFull 2 (lits "John") = true ∧ "John" ∉ commonWords2 ∧
      3 ≤ String.length "John") :=
  ⟨⟨by decide, (claim_C1 "John met Uma" "John").1 (by decide)⟩,
   ⟨by decide, (claim_C1 "John met Uma" "John").2 (by decide)⟩⟩

/-- Claim C2 counterexample: with `re.IGNORECASE` the entity classes are
case-insensitive too, so extraction on "bob works with alice" returns the
tuple ("bob", "alice"), an entity string whose first letter is lowercase —
refuting the claim that no returned tuple contains such an entity. -/
theorem claim_C2_counterexample :
    Rel.two "bob" "alice" ∈ extractRels "bob works with alice" ∧
    (lits "bob").head? = some 'b' ∧ 'b'.isLower = true := by
  refine ⟨by decide, by decide, by decide⟩

/-- Claim C2 (amended): matching is case-insensitive for the entire
pattern, entity spans included — every component of every returned
relationship tuple is a case-insensitive letter span (nonempty letter runs
of either case separated by whitespace runs), so entity strings may begin
with a lowercase letter; only the shape, not the case, of entity spans is
constrained. -/
theorem claim_C2_amended (t : String) (r : Rel) (hr : r ∈ extractRels t) :
    ∀ s ∈ relParts r, ciSpan s.data = true :=
  fun s hs => extractRels_parts t r hr s hs

/-- Witness for the amended C2 at the text "Bob knows Amy". -/
theorem claim_C2_witness :
    (Rel.two "Bob" "Amy" ∈ extractRels "Bob knows Amy") ∧
    ciSpan (lits "Bob") = true ∧ ciSpan (lits "Amy") = true :=
  ⟨by decide,
   claim_C2_amended "Bob knows Amy" (Rel.two "Bob" "Amy") (by decide) "Bob"
     (by decide),
   claim_C2_amended "Bob knows Amy" (Rel.two "Bob" "Amy") (by decide) "Amy"
     (by decide)⟩

/-- Claim C3 counterexample: the text "REDACTED is my brotherly" contains
the substring "REDACTED is my brother", yet no extracted tuple equals
("REDACTED", "brother") — the greedy `([a-z]+)` group captures
"brotherly" instead. -/
theorem claim_C3_counterexample :
    hasSub (lits "REDACTED is my brother")
      (lits "REDACTED is my brotherly") = true ∧
    Rel.two "REDACTED" "brother" ∉
      extractRels "REDACTED is my brotherly" := by
  refine ⟨by decide, by decide⟩

/-- Claim C3 (amended): for the input text "REDACTED is my brother"
itself, extraction returns a tuple whose first element is the literal
"REDACTED" and second element "brother" — the single captured group of
redacted pattern 1 is normalized by pairing it with "REDACTED". -/
theorem claim_C3_amended :
    Rel.two "REDACTED" "brother" ∈ extractRels "REDACTED is my brother" := by
  decide

/-- Claim C4 counterexample: the structured-parse name pattern accepts
"Jo", a word with a single trailing lowercase letter, while a pattern
demanding at least 3 trailing lowercase letters rejects it — so the
structured-parse script requires ≥ 1, not ≥ 3, trailing lowercase
letters per word. -/
theorem claim_C4_counterexample :
    nameFull 1 (lits "Jo") = true ∧ nameFull 3 (lits "Jo") = false := by
  refine ⟨by decide, by decide⟩

/-- Claim C4 (amended): the two scripts' name patterns differ exactly in
the minimum number of trailing lowercase letters required per word — at
least 1 in the structured-parse script and at least 2 in the byte-scan
script: every byte-scan match is a structured-parse match, and the word
"Jo" (one trailing lowercase letter) separates the two. -/
theorem claim_C4_amended :
    (∀ l, nameFull 2 l = true → nameFull 1 l = true) ∧
    nameFull 1 (lits "Jo") = true ∧ nameFull 2 (lits "Jo") = false ∧
    nameFull 1 (lits "Joe") = true ∧ nameFull 2 (lits "Joe") = true :=
  ⟨fun _ h => nameFull_mono h, by decide, by decide, by decide, by decide⟩

/-- Witness for the amended C4: "Ann Lee" is matched by the byte-scan
pattern, hence by the structured-parse pattern. -/
theorem claim_C4_witness :
    nameFull 2 (lits "Ann Lee") = true ∧
    nameFull 1 (lits "Ann Lee") = true :=
  ⟨by decide, claim_C4_amended.1 (lits "Ann Lee") (by decide)⟩

/-- Claim C5 counterexample: the text
"Mary Jane Smith works with John Doe" contains the substring
"Jane Smith works with John Doe", yet extraction never returns
("Jane Smith", "John Doe") — the greedy entity group extends to
"Mary Jane Smith". -/
theorem claim_C5_counterexample :
    hasSub (lits "Jane Smith works with John Doe")
      (lits "Mary Jane Smith works with John Doe") = true ∧
    Rel.two "Jane Smith" "John Doe" ∉
      extractRels "Mary Jane Smith works with John Doe" := by
  refine ⟨by decide, by decide⟩

/-- Claim C5 (amended): for the input text
"Jane Smith works with John Doe" itself, extraction returns the tuple
("Jane Smith", "John Doe") (connector matched case-insensitively). -/
theorem claim_C5_amended :
    Rel.two "Jane Smith" "John Doe" ∈
      extractRels "Jane Smith works with John Doe" := by
  decide

/-- A text whose byte-scan classification yields 21 distinct names. -/
def c6text : String :=
  "Aaa. Bbb. Ccc. Ddd. Eee. Fff. Ggg. Hhh. Iii. Jjj. Kkk. Lll. Mmm. Nnn. Ooo. Ppp. Qqq. Rrr. Sss. Ttt. Uuu."

/-- Claim C6 counterexample: the byte-scan script prints only
`sorted(names)[:20]` per document, so with 21 classified names the name
"Uuu" is classified but its bullet line is not printed — refuting "the
full set is printed, with no truncation" for the byte-scan script. -/
theorem claim_C6_counterexample :
    "Uuu" ∈ extractNames2 c6text ∧
    bulletLine "Uuu" ∉ reportNames2 (extractNames2 c6text) := by
  refine ⟨by decide, by decide⟩

/-- Claim C6 (amended): the structured-parse report prints exactly the
bullet lines of the name set in ascending lexicographic order (a string
is in the set iff its bullet line is printed), while the byte-scan
per-document report prints only the first 20 of those lines. -/
theorem claim_C6_amended (names : List String) :
    (∀ n, n ∈ names ↔ bulletLine n ∈ reportNames1 names) ∧
    (sortStrs names).Pairwise (fun a b => strLe a b = true) ∧
    reportNames2 names = (reportNames1 names).take 20 := by
  refine ⟨?_, sortStrs_pairwise names, ?_⟩
  · intro n
    constructor
    · intro h
      exact List.mem_map_of_mem bulletLine ((mem_sortStrs names n).mpr h)
    · intro h
      obtain ⟨y, hy, hyn⟩ := List.mem_map.mp h
      have hyeq := bulletLine_inj hyn
      subst hyeq
      exact (mem_sortStrs names y).mp hy
  · unfold reportNames1 reportNames2
    exact List.map_take ..

/-- Claim C7: for every successfully acquired text, the sample file
content is exactly the first min(5000, len(t)) characters of t
(`f.write(text[:5000])`, mode "w" overwriting, UTF-8 encoding). -/
theorem claim_C7 (t : String) :
    sampleFileContent t = t.data.take (min 5000 t.length) ∧
    (sampleFileContent t).length = min 5000 t.length := by
  constructor
  · show t.data.take 5000 = t.data.take (min 5000 t.length)
    rcases Nat.le_total t.data.length 5000 with h | h
    · have hmin : min 5000 t.length = t.data.length := Nat.min_eq_right h
      rw [hmin, List.take_length, List.take_of_length_le h]
    · have hmin : min 5000 t.length = 5000 := Nat.min_eq_left h
      rw [hmin]
  · exact List.length_take 5000 t.data

/-- Claim C8: on the empty text, both scripts' classification returns the
empty set and relationship extraction returns the empty sequence (and,
being total functions, no exception is raised). -/
theorem claim_C8 :
    extract_names_and_relationships "" = ([], []) ∧
    extractNames2 "" = [] := by
  refine ⟨rfl, rfl⟩

/-- Claim C9: for every text with exactly 3 case-insensitive occurrences
of the placeholder "REDACTED" (such as "redacted REDACTED Redacted"), the
byte-scan occurrence count equals 3. -/
theorem claim_C9 (t : String) (h : posCount t.data = 3) :
    redactedCount t = 3 := by
  rw [redactedCount_eq]
  exact h

/-- Witness for C9 at the text "redacted REDACTED Redacted". -/
theorem claim_C9_witness :
    posCount (lits "redacted REDACTED Redacted") = 3 ∧
    redactedCount "redacted REDACTED Redacted" = 3 :=
  ⟨by decide, claim_C9 "redacted REDACTED Redacted" (by decide)⟩

/-- Claim C10: in the structured-parse driver, a successful acquisition
returning the empty string is treated exactly like a failed acquisition
(`if text1:` is false for both `None` and `""`): classification, the
report and the sample write are all skipped. -/
theorem claim_C10 :
    processDoc (some "") = processDoc none ∧ processDoc none = none :=
  ⟨rfl, rfl⟩

end Clank
